import Mathlib

/-!
# No Thanks! engine and bot policy: a shallow embedding

This file embeds the game engine (`engine.ts`) and the bot decision policy
(`bots.ts`) of the repository as executable Lean definitions, and proves the
specification's claims about them.

Modelling conventions:
* JS numbers holding cards, chips and scores are embedded as `Int`
  (all arithmetic in the source is integer arithmetic on them);
  list indices are `Nat`.
* `Array.prototype.sort((a, b) => a - b)` is a stable ascending sort; it is
  embedded as Mathlib's stable `List.insertionSort (· ≤ ·)`.
* `Math.random()` draws are embedded by a stream `r : Nat → Nat` of
  arbitrary naturals; `Math.floor(Math.random() * n)`, a uniform draw from
  `[0, n)`, becomes `r k % n` for the `k`-th draw, which reaches exactly the
  same values.
* `players[i]` indexing is embedded with `List.getD` and a default player
  whose chip count is `0`; states produced by the engine always index in
  range, so the default is never consulted there.
* `players.map((p, idx) => ...)` is embedded by the index-passing map
  `jsMapIdx` below.
-/

namespace NoThanks

/-- JS-style `map` that also passes the element index to the callback. -/
def jsMapIdx (f : Nat → α → β) : List α → List β
  | [] => []
  | a :: l => f 0 a :: jsMapIdx (fun i x => f (i + 1) x) l

inductive BotStyle
  | easy
  | standard
  | greedy
deriving DecidableEq, Repr

structure SetupPlayer where
  id : String
  name : String
  isHuman : Bool
  botStyle : Option BotStyle := none
deriving DecidableEq, Repr

structure Player extends SetupPlayer where
  chips : Int
  cards : List Int
deriving DecidableEq, Repr

structure ScoreEntry where
  playerId : String
  name : String
  total : Int
  cardPoints : Int
  chipPoints : Int
  runs : List (List Int)
deriving DecidableEq, Repr

inductive Status
  | playing
  | done
deriving DecidableEq, Repr

structure GameState where
  players : List Player
  deck : List Int
  removed : List Int
  activeCard : Option Int
  chipsOnCard : Int
  currentPlayerIndex : Nat
  status : Status
  scores : Option (List ScoreEntry) := none
deriving DecidableEq, Repr

def MIN_CARD : Int := 3

def MAX_CARD : Int := 35

def UNKNOWN_CARDS : Nat := 9

def STARTING_CHIPS : Int := 11

/-- `Array.from({length: end - start + 1}, (_, i) => start + i)`. -/
def range (start endInclusive : Int) : List Int :=
  (List.range (endInclusive - start + 1).toNat).map fun i => start + (i : Int)

def makeDeck : List Int := range MIN_CARD MAX_CARD

/-- Default used to totalize out-of-range `players[i]` accesses; its chip
count `0` means such an access can never pass the `chips > 0` guards. -/
def defaultPlayer : Player :=
  { id := "", name := "", isHuman := false, botStyle := none, chips := 0, cards := [] }

/-- The in-place swap `[deck[i], deck[j]] = [deck[j], deck[i]]` on lists. -/
def swapL (l : List Int) (i j : Nat) : List Int :=
  (l.set i (l.getD j 0)).set j (l.getD i 0)

/-- The Fisher-Yates loop of `shuffle`: iteration `i` (counting down from
`length - 1` to `1`) swaps position `i` with `r i % (i + 1)`, embedding the
draw `Math.floor(Math.random() * (i + 1))`. -/
def shuffleGo (r : Nat → Nat) : Nat → List Int → List Int
  | 0, deck => deck
  | i + 1, deck => shuffleGo r i (swapL deck (i + 1) (r (i + 1) % (i + 2)))

def shuffle (r : Nat → Nat) (cards : List Int) : List Int :=
  shuffleGo r (cards.length - 1) cards

structure PreparedDeck where
  deck : List Int
  removed : List Int
deriving DecidableEq, Repr

/-- The removal loop of `prepareDeck`: `n` draws remain; draw `k` (for
`k = UNKNOWN_CARDS - n`) picks `idx = r k % deck.length` and moves
`deck.splice(idx, 1)[0]` onto `removed`. -/
def drawGo (r : Nat → Nat) : Nat → List Int → List Int → PreparedDeck
  | 0, deck, removed => ⟨deck, removed⟩
  | n + 1, deck, removed =>
    drawGo r n (deck.eraseIdx (r (UNKNOWN_CARDS - (n + 1)) % deck.length))
      (removed ++ [deck.getD (r (UNKNOWN_CARDS - (n + 1)) % deck.length) 0])

/-- `prepareDeck`, with the random stream split: draws `0..8` feed the
removal loop, the rest feed the shuffle. -/
def prepareDeck (r : Nat → Nat) : PreparedDeck :=
  let d := drawGo r UNKNOWN_CARDS makeDeck []
  ⟨shuffle (fun n => r (n + UNKNOWN_CARDS)) d.deck, d.removed⟩

def startPlayers (setups : List SetupPlayer) : List Player :=
  setups.map fun p => { toSetupPlayer := p, chips := STARTING_CHIPS, cards := [] }

/-- `createGame`: `deck.shift() ?? null` becomes `head?`/`tail`. -/
def createGame (setups : List SetupPlayer) (r : Nat → Nat) : GameState :=
  let pd := prepareDeck r
  { players := startPlayers setups
    deck := pd.deck.tail
    removed := pd.removed
    activeCard := pd.deck.head?
    chipsOnCard := 0
    currentPlayerIndex := 0
    status := Status.playing
    scores := none }

structure CardPointsResult where
  total : Int
  runs : List (List Int)
deriving DecidableEq, Repr

/-- The run-building loop of `cardPoints`: `prev` is `sorted[i-1]` (always
the last element of `currentRun`), and the remaining input is
`sorted[i..]`. -/
def runsLoop : Int → List Int → List (List Int) → List Int → List (List Int)
  | _, currentRun, runs, [] => runs ++ [currentRun]
  | prev, currentRun, runs, card :: rest =>
    if card = prev + 1 then runsLoop card (currentRun ++ [card]) runs rest
    else runsLoop card [card] (runs ++ [currentRun]) rest

/-- `cardPoints`.  The source's early return on an empty hand is the `[]`
branch of the match on the sorted hand (the sort of a list is empty exactly
when the list is); `run[0]` on the always-nonempty runs is `headD 0`. -/
def cardPoints (cards : List Int) : CardPointsResult :=
  match List.insertionSort (· ≤ ·) cards with
  | [] => { total := 0, runs := [] }
  | c0 :: rest =>
    let runs := runsLoop c0 [c0] [] rest
    { total := runs.foldl (fun acc run => acc + run.headD 0) 0, runs := runs }

/-- The body of the `map` inside `computeScores`. -/
def mkScoreEntry (p : Player) : ScoreEntry :=
  let res := cardPoints p.cards
  { playerId := p.id
    name := p.name
    total := res.total - p.chips
    cardPoints := res.total
    chipPoints := p.chips
    runs := res.runs }

/-- `computeScores`: map then stable sort ascending by `total`
(`.sort((a, b) => a.total - b.total)`). -/
def computeScores (players : List Player) : List ScoreEntry :=
  (players.map mkScoreEntry).insertionSort fun a b => a.total ≤ b.total

def nextPlayerIndex (s : GameState) : Nat :=
  (s.currentPlayerIndex + 1) % s.players.length

/-- `passCard`, totalized: `players[idx]` is embedded with `getD` and the
0-chip `defaultPlayer`, so the one state family where the source instead
throws (status `playing`, active card present, index out of range — there
`players[idx]` is `undefined` and reading `.chips` raises a TypeError) is
collapsed into the no-op branch.  `passCardE` below keeps that error path
explicit; on every other state the two agree. -/
def passCard (s : GameState) : GameState :=
  if s.status ≠ Status.playing ∨ s.activeCard = none then s
  else
    let player := s.players.getD s.currentPlayerIndex defaultPlayer
    if player.chips ≤ 0 then s
    else
      { s with
        players := jsMapIdx
          (fun idx p =>
            if idx = s.currentPlayerIndex then { p with chips := p.chips - 1 } else p)
          s.players
        chipsOnCard := s.chipsOnCard + 1
        currentPlayerIndex := nextPlayerIndex s }

/-- `passCard` with the JS error path made explicit: past the guard,
`state.players[state.currentPlayerIndex]` is `undefined` when the index is
out of range, and the subsequent `player.chips` access throws a TypeError;
the thrown outcome is `none`. -/
def passCardE (s : GameState) : Option GameState :=
  if s.status ≠ Status.playing ∨ s.activeCard = none then some s
  else
    match s.players[s.currentPlayerIndex]? with
    | none => none
    | some player =>
      if player.chips ≤ 0 then some s
      else
        some { s with
          players := jsMapIdx
            (fun idx p =>
              if idx = s.currentPlayerIndex then { p with chips := p.chips - 1 } else p)
            s.players
          chipsOnCard := s.chipsOnCard + 1
          currentPlayerIndex := nextPlayerIndex s }

def endStateIfNeeded (s : GameState) : GameState :=
  match s.activeCard with
  | some _ => s
  | none => { s with status := Status.done, scores := some (computeScores s.players) }

/-- `takeCard`.  The source's single guard
`status !== 'playing' || activeCard === null` is split into the status test
and the `none` branch of the match that names the active card. -/
def takeCard (s : GameState) : GameState :=
  if s.status ≠ Status.playing then s
  else
    match s.activeCard with
    | none => s
    | some card =>
      let updatedPlayers := jsMapIdx
        (fun idx p =>
          if idx = s.currentPlayerIndex then
            { p with
              cards := List.insertionSort (· ≤ ·) (p.cards ++ [card])
              chips := p.chips + s.chipsOnCard }
          else p)
        s.players
      let nextCard := s.deck.head?
      let updated : GameState :=
        { s with
          players := updatedPlayers
          activeCard := nextCard
          deck := s.deck.tail
          chipsOnCard := 0
          currentPlayerIndex := s.currentPlayerIndex }
      match nextCard with
      | none => endStateIfNeeded { updated with activeCard := none }
      | some _ => updated

def getActivePlayer (s : GameState) : Player :=
  s.players.getD s.currentPlayerIndex defaultPlayer

def canPass (s : GameState) : Bool :=
  s.status = Status.playing && s.activeCard ≠ none && (getActivePlayer s).chips > 0

def canTake (s : GameState) : Bool :=
  s.status = Status.playing && s.activeCard ≠ none

/-- `addAndScore`: the `projectedScore` field of the source's result. -/
def addAndScore (player : Player) (card : Int) (chipsOnCard : Int) : Int :=
  let hand := player.cards ++ [card]
  let total := (cardPoints hand).total
  let chipPoints := player.chips + chipsOnCard
  total - chipPoints

def formsRun (card : Int) (cards : List Int) : Bool :=
  cards.contains (card - 1) || cards.contains (card + 1)

inductive BotAction
  | pass
  | take
deriving DecidableEq, Repr

/-- `decideBotAction`; `chance` embeds the single `Math.random()` draw of
the `easy` branch (a real in `[0, 1)`, compared against `0.3` and `0.5`).
Like `passCard`, this totalizes the source's one error path: with an
active card and an out-of-range `currentPlayerIndex` the source throws on
`player.chips`, while `getActivePlayer`'s 0-chip default makes this
definition return `take`; the claims proved about it either presuppose an
acting player or force the index in range via `chips > 0`. -/
def decideBotAction (s : GameState) (style : BotStyle) (chance : ℚ) : BotAction :=
  match s.activeCard with
  | none => BotAction.take
  | some card =>
    let player := getActivePlayer s
    if player.chips ≤ 0 then BotAction.take
    else
      let baseCardPoints := (cardPoints player.cards).total
      let baseScore := baseCardPoints - player.chips
      let projectedScore := addAndScore player card s.chipsOnCard
      let delta := projectedScore - baseScore
      let runLink := formsRun card player.cards
      match style with
      | BotStyle.greedy =>
        if runLink then BotAction.take
        else if delta ≤ 2 then BotAction.take
        else if s.chipsOnCard ≥ 4 then BotAction.take
        else BotAction.pass
      | BotStyle.easy =>
        if runLink ∧ delta ≤ 3 then BotAction.take
        else if s.chipsOnCard ≥ 3 ∧ chance > 3 / 10 then BotAction.take
        else if chance > 1 / 2 then BotAction.pass
        else BotAction.take
      | BotStyle.standard =>
        if delta ≤ 0 then BotAction.take
        else if runLink ∧ delta ≤ 3 then BotAction.take
        else if s.deck.length < 6 ∧ delta ≤ 4 then BotAction.take
        else if s.chipsOnCard ≥ 5 ∧ delta ≤ 5 then BotAction.take
        else BotAction.pass

/-- The multiset of cards present anywhere in a state: deck, removed pile,
active card, and all players' hands. -/
def cardMultiset (s : GameState) : Multiset Int :=
  (s.deck : Multiset Int) + (s.removed : Multiset Int)
    + (s.activeCard.toList : Multiset Int)
    + ((s.players.map Player.cards).flatten : Multiset Int)

/-- The full card range, as a multiset. -/
def fullCards : Multiset Int := (makeDeck : Multiset Int)

/-- Sum of all chips in play: every player's stock plus the pile on the
active card. -/
def chipTotal (s : GameState) : Int :=
  (s.players.map Player.chips).sum + s.chipsOnCard

/-- States reachable from `createGame` by `passCard`/`takeCard`. -/
inductive Reachable : GameState → Prop
  | base (setups : List SetupPlayer) (r : Nat → Nat) : Reachable (createGame setups r)
  | pass {s : GameState} : Reachable s → Reachable (passCard s)
  | take {s : GameState} : Reachable s → Reachable (takeCard s)

/-- States reachable from a `createGame` with at least one player. -/
inductive ReachableNE : GameState → Prop
  | base (setups : List SetupPlayer) (r : Nat → Nat) (h : setups ≠ []) :
      ReachableNE (createGame setups r)
  | pass {s : GameState} : ReachableNE s → ReachableNE (passCard s)
  | take {s : GameState} : ReachableNE s → ReachableNE (takeCard s)

instance : IsTotal ScoreEntry fun a b => a.total ≤ b.total :=
  ⟨fun a b => le_total a.total b.total⟩

instance : IsTrans ScoreEntry fun a b => a.total ≤ b.total :=
  ⟨fun _ _ _ h1 h2 => le_trans h1 h2⟩

/-! ## Sample states used by witnesses -/

def samplePlayer : Player :=
  { id := "p1", name := "A", isHuman := true, botStyle := none, chips := 3, cards := [5, 9] }

def sampleState : GameState :=
  { players := [samplePlayer], deck := [12, 20], removed := [4], activeCard := some 8,
    chipsOnCard := 2, currentPlayerIndex := 0, status := Status.playing, scores := none }

def sampleDone : GameState :=
  { players := [samplePlayer], deck := [], removed := [], activeCard := none,
    chipsOnCard := 0, currentPlayerIndex := 0, status := Status.done, scores := none }

def brokePlayer : Player :=
  { id := "b", name := "B", isHuman := false, botStyle := none, chips := 0, cards := [] }

def sampleBroke : GameState :=
  { players := [brokePlayer], deck := [9], removed := [], activeCard := some 4,
    chipsOnCard := 1, currentPlayerIndex := 0, status := Status.playing, scores := none }

/-- The marginal cost of taking the active card: projected score after
taking minus current score (the bot policy's `delta`). -/
def botDelta (s : GameState) (card : Int) : Int :=
  addAndScore (getActivePlayer s) card s.chipsOnCard -
    ((cardPoints (getActivePlayer s).cards).total - (getActivePlayer s).chips)

def sampleEndgame : GameState :=
  { players := [samplePlayer], deck := [], removed := [4], activeCard := some 30,
    chipsOnCard := 1, currentPlayerIndex := 0, status := Status.playing, scores := none }

def sampleSetup : SetupPlayer :=
  { id := "p1", name := "A", isHuman := true, botStyle := none }

def skewState : GameState :=
  { players := [samplePlayer], deck := [12], removed := [], activeCard := some 8,
    chipsOnCard := 3, currentPlayerIndex := 5, status := Status.playing, scores := none }

/-! ## Helper lemmas about `jsMapIdx` -/

theorem jsMapIdx_congr {f g : Nat → α → β} (h : ∀ i a, f i a = g i a) :
    ∀ l : List α, jsMapIdx f l = jsMapIdx g l
  | [] => rfl
  | a :: l => by
    simp only [jsMapIdx, h 0 a]
    exact congrArg _ (jsMapIdx_congr (fun i a => h (i + 1) a) l)

theorem jsMapIdx_id {f : Nat → α → α} (h : ∀ i a, f i a = a) :
    ∀ l : List α, jsMapIdx f l = l
  | [] => rfl
  | a :: l => by
    simp only [jsMapIdx, h 0 a]
    exact congrArg _ (jsMapIdx_id (fun i a => h (i + 1) a) l)

theorem length_jsMapIdx (f : Nat → α → β) : ∀ l : List α, (jsMapIdx f l).length = l.length
  | [] => rfl
  | _ :: l => congrArg Nat.succ (length_jsMapIdx _ l)

/-- Updating index `cur` (when in range) decomposes as take/element/drop. -/
theorem jsMapIdx_updAt_eq (d : α) (f : α → α) :
    ∀ (l : List α) (cur : Nat), cur < l.length →
      jsMapIdx (fun i p => if i = cur then f p else p) l =
        l.take cur ++ f (l.getD cur d) :: l.drop (cur + 1)
  | [], cur, h => absurd h (by simp)
  | a :: l, 0, _ => by
    simp only [jsMapIdx, if_pos rfl, List.take_zero, List.getD_cons_zero, List.drop_succ_cons,
      List.drop_zero, List.nil_append]
    exact congrArg _ (jsMapIdx_id (fun i a => if_neg (Nat.succ_ne_zero i)) l)
  | a :: l, cur + 1, h => by
    simp only [jsMapIdx, if_neg (Nat.succ_ne_zero cur).symm, List.take_succ_cons,
      List.getD_cons_succ, List.drop_succ_cons, List.cons_append]
    refine congrArg _ ?_
    rw [jsMapIdx_congr (g := fun i p => if i = cur then f p else p)
      (fun i a => by simp [Nat.succ_inj]) l]
    exact jsMapIdx_updAt_eq d f l cur (Nat.lt_of_succ_lt_succ h)

/-- Updating an out-of-range index is the identity. -/
theorem jsMapIdx_updAt_ge (f : α → α) :
    ∀ (l : List α) (cur : Nat), l.length ≤ cur →
      jsMapIdx (fun i p => if i = cur then f p else p) l = l
  | [], _, _ => rfl
  | a :: l, 0, h => absurd h (by simp)
  | a :: l, cur + 1, h => by
    simp only [jsMapIdx, if_neg (Nat.succ_ne_zero cur).symm]
    refine congrArg _ ?_
    rw [jsMapIdx_congr (g := fun i p => if i = cur then f p else p)
      (fun i a => by simp [Nat.succ_inj]) l]
    exact jsMapIdx_updAt_ge f l cur (Nat.le_of_succ_le_succ h)

theorem jsMapIdx_updAt_getD_eq (d : α) (f : α → α) :
    ∀ (l : List α) (cur : Nat), cur < l.length →
      (jsMapIdx (fun i p => if i = cur then f p else p) l).getD cur d =
        f (l.getD cur d)
  | [], cur, h => absurd h (by simp)
  | a :: l, 0, _ => by simp [jsMapIdx]
  | a :: l, cur + 1, h => by
    simp only [jsMapIdx, if_neg (Nat.succ_ne_zero cur).symm, List.getD_cons_succ]
    rw [jsMapIdx_congr (g := fun i p => if i = cur then f p else p)
      (fun i a => by simp [Nat.succ_inj]) l]
    exact jsMapIdx_updAt_getD_eq d f l cur (Nat.lt_of_succ_lt_succ h)

theorem jsMapIdx_updAt_getD_ne (d : α) (f : α → α) :
    ∀ (l : List α) (cur i : Nat), i ≠ cur →
      (jsMapIdx (fun j p => if j = cur then f p else p) l).getD i d = l.getD i d
  | [], _, _, _ => rfl
  | a :: l, cur, 0, hi => by
    simp only [jsMapIdx, List.getD_cons_zero]
    exact if_neg hi
  | a :: l, cur, i + 1, hi => by
    simp only [jsMapIdx, List.getD_cons_succ]
    cases cur with
    | zero =>
      rw [jsMapIdx_id (fun j a => if_neg (Nat.succ_ne_zero j)) l]
    | succ cur =>
      rw [jsMapIdx_congr (g := fun j p => if j = cur then f p else p)
        (fun j a => by simp [Nat.succ_inj]) l]
      exact jsMapIdx_updAt_getD_ne d f l cur i fun h => hi (congrArg Nat.succ h)

/-- A `jsMapIdx` whose callback preserves an observation `g` preserves the
mapped list. -/
theorem jsMapIdx_map {g : α → β} {f : Nat → α → α} (h : ∀ i a, g (f i a) = g a) :
    ∀ l : List α, (jsMapIdx f l).map g = l.map g
  | [] => rfl
  | a :: l => by
    simp only [jsMapIdx, List.map_cons, h 0 a]
    exact congrArg _ (jsMapIdx_map (fun i a => h (i + 1) a) l)

/-- An in-range list element splits the list around itself. -/
theorem getD_decomp (d : α) {l : List α} {cur : Nat} (h : cur < l.length) :
    l = l.take cur ++ l.getD cur d :: l.drop (cur + 1) := by
  conv_lhs => rw [← List.take_append_drop cur l]
  rw [List.getD_eq_getElem l d h, List.get_drop_eq_drop l cur h]

/-- Effect of an in-range `jsMapIdx` update on a mapped sum. -/
theorem sum_map_jsMapIdx_updAt (d : α) (f : α → α) (g : α → Int) :
    ∀ (l : List α) (cur : Nat), cur < l.length →
      ((jsMapIdx (fun i p => if i = cur then f p else p) l).map g).sum =
        (l.map g).sum - g (l.getD cur d) + g (f (l.getD cur d))
  | [], cur, h => absurd h (by simp)
  | a :: l, 0, _ => by
    simp only [jsMapIdx, eq_self_iff_true, if_true, List.map_cons, List.sum_cons,
      List.getD_cons_zero]
    rw [jsMapIdx_id (fun i a => if_neg (Nat.succ_ne_zero i)) l]
    ring
  | a :: l, cur + 1, h => by
    simp only [jsMapIdx, if_neg (Nat.succ_ne_zero cur).symm, List.map_cons, List.sum_cons,
      List.getD_cons_succ]
    rw [jsMapIdx_congr (g := fun i p => if i = cur then f p else p)
      (fun i a => by simp [Nat.succ_inj]) l]
    rw [sum_map_jsMapIdx_updAt d f g l cur (Nat.lt_of_succ_lt_succ h)]
    ring

/-- Effect of an in-range `jsMapIdx` update on the multiset of flattened
mapped lists. -/
theorem flatten_map_jsMapIdx_updAt (d : α) (f : α → α) (g : α → List Int) :
    ∀ (l : List α) (cur : Nat), cur < l.length →
      (((jsMapIdx (fun i p => if i = cur then f p else p) l).map g).flatten : Multiset Int)
          + (g (l.getD cur d) : Multiset Int) =
        ((l.map g).flatten : Multiset Int) + (g (f (l.getD cur d)) : Multiset Int)
  | [], cur, h => absurd h (by simp)
  | a :: l, 0, _ => by
    simp only [jsMapIdx, eq_self_iff_true, if_true, List.map_cons, List.flatten_cons,
      List.getD_cons_zero]
    rw [jsMapIdx_id (fun i a => if_neg (Nat.succ_ne_zero i)) l]
    simp only [← Multiset.coe_add]
    abel
  | a :: l, cur + 1, h => by
    simp only [jsMapIdx, if_neg (Nat.succ_ne_zero cur).symm, List.map_cons, List.flatten_cons,
      List.getD_cons_succ]
    rw [jsMapIdx_congr (g := fun i p => if i = cur then f p else p)
      (fun i a => by simp [Nat.succ_inj]) l]
    have ih := flatten_map_jsMapIdx_updAt d f g l cur (Nat.lt_of_succ_lt_succ h)
    simp only [← Multiset.coe_add]
    rw [add_assoc, add_assoc, ih]

/-! ## Permutation facts about the shuffle and the removal draw -/

theorem getD_cons_set_perm :
    ∀ (xs : List Int) (m : Nat) (x : Int), m < xs.length →
      (xs.getD m 0 :: xs.set m x).Perm (x :: xs)
  | [], m, x, h => absurd h (by simp)
  | y :: ys, 0, x, _ => by
    simpa using List.Perm.swap x y ys
  | y :: ys, m + 1, x, h => by
    simp only [List.getD_cons_succ, List.set_cons_succ]
    have p1 : (ys.getD m 0 :: y :: ys.set m x).Perm (y :: ys.getD m 0 :: ys.set m x) :=
      List.Perm.swap y (ys.getD m 0) (ys.set m x)
    have p2 : (y :: ys.getD m 0 :: ys.set m x).Perm (y :: x :: ys) :=
      (getD_cons_set_perm ys m x (Nat.lt_of_succ_lt_succ h)).cons y
    have p3 : (y :: x :: ys).Perm (x :: y :: ys) := List.Perm.swap x y ys
    exact (p1.trans p2).trans p3

theorem swapL_perm :
    ∀ (l : List Int) (i j : Nat), i < l.length → j < l.length → (swapL l i j).Perm l
  | [], i, _, hi, _ => absurd hi (by simp)
  | x :: xs, 0, 0, _, _ => by simp [swapL]
  | x :: xs, 0, j + 1, _, hj => by
    simp only [swapL, List.getD_cons_succ, List.getD_cons_zero, List.set_cons_zero,
      List.set_cons_succ]
    exact getD_cons_set_perm xs j x (Nat.lt_of_succ_lt_succ hj)
  | x :: xs, i + 1, 0, hi, _ => by
    simp only [swapL, List.getD_cons_succ, List.getD_cons_zero, List.set_cons_succ,
      List.set_cons_zero]
    exact getD_cons_set_perm xs i x (Nat.lt_of_succ_lt_succ hi)
  | x :: xs, i + 1, j + 1, hi, hj => by
    simp only [swapL, List.getD_cons_succ, List.set_cons_succ]
    exact (swapL_perm xs i j (Nat.lt_of_succ_lt_succ hi) (Nat.lt_of_succ_lt_succ hj)).cons x

theorem length_swapL (l : List Int) (i j : Nat) : (swapL l i j).length = l.length := by
  simp [swapL]

theorem shuffleGo_perm (r : Nat → Nat) :
    ∀ (n : Nat) (deck : List Int), n < deck.length → (shuffleGo r n deck).Perm deck
  | 0, deck, _ => List.Perm.refl deck
  | n + 1, deck, h => by
    have hj : r (n + 1) % (n + 2) < deck.length :=
      lt_of_lt_of_le (Nat.mod_lt _ (Nat.succ_pos _)) h
    have hswap := swapL_perm deck (n + 1) (r (n + 1) % (n + 2)) h hj
    have hlen : n < (swapL deck (n + 1) (r (n + 1) % (n + 2))).length := by
      rw [length_swapL]; exact Nat.lt_of_succ_lt h
    exact (shuffleGo_perm r n _ hlen).trans hswap

theorem shuffle_perm (r : Nat → Nat) (cards : List Int) : (shuffle r cards).Perm cards := by
  match cards with
  | [] => exact List.Perm.refl _
  | c :: cs =>
    exact shuffleGo_perm r ((c :: cs).length - 1) (c :: cs) (by simp)

/-- Removing an element at an in-range index and recording it elsewhere
preserves the combined multiset. -/
theorem eraseIdx_getD_ms (dk rm : List Int) {i : Nat} (hi : i < dk.length) :
    ((dk.eraseIdx i : List Int) : Multiset Int) + ((rm ++ [dk.getD i 0]) : Multiset Int) =
      (dk : Multiset Int) + (rm : Multiset Int) := by
  rw [List.eraseIdx_eq_take_drop_succ]
  conv_rhs => rw [getD_decomp 0 hi]
  simp only [← Multiset.coe_add, ← Multiset.cons_coe, ← Multiset.singleton_add,
    Multiset.coe_singleton, Multiset.coe_nil]
  abel

theorem drawGo_ms (r : Nat → Nat) :
    ∀ (n : Nat) (deck removed : List Int), n ≤ deck.length →
      ((drawGo r n deck removed).deck : Multiset Int)
          + ((drawGo r n deck removed).removed : Multiset Int) =
        (deck : Multiset Int) + (removed : Multiset Int)
  | 0, deck, removed, _ => rfl
  | n + 1, deck, removed, h => by
    have hpos : 0 < deck.length := Nat.lt_of_lt_of_le (Nat.succ_pos n) h
    have hlt : r (UNKNOWN_CARDS - (n + 1)) % deck.length < deck.length := Nat.mod_lt _ hpos
    have hlen : n ≤ (deck.eraseIdx (r (UNKNOWN_CARDS - (n + 1)) % deck.length)).length := by
      rw [List.length_eraseIdx, if_pos hlt]
      omega
    simp only [drawGo]
    rw [drawGo_ms r n _ _ hlen, eraseIdx_getD_ms deck removed hlt]

theorem prepareDeck_ms (r : Nat → Nat) :
    ((prepareDeck r).deck : Multiset Int) + ((prepareDeck r).removed : Multiset Int) =
      (makeDeck : Multiset Int) := by
  have hlen : UNKNOWN_CARDS ≤ makeDeck.length := by decide
  have hshuf : ((shuffle (fun n => r (n + UNKNOWN_CARDS))
        (drawGo r UNKNOWN_CARDS makeDeck []).deck : List Int) : Multiset Int) =
      ((drawGo r UNKNOWN_CARDS makeDeck []).deck : Multiset Int) :=
    Multiset.coe_eq_coe.mpr (shuffle_perm _ _)
  simp only [prepareDeck]
  rw [hshuf, drawGo_ms r UNKNOWN_CARDS makeDeck [] hlen]
  simp

end NoThanks

namespace NoThanks

/-! ## Structure of `runsLoop` and `cardPoints` -/

theorem runsLoop_flatten :
    ∀ (rest : List Int) (prev : Int) (currentRun : List Int) (runs : List (List Int)),
      (runsLoop prev currentRun runs rest).flatten = runs.flatten ++ currentRun ++ rest
  | [], _, cr, runs => by simp [runsLoop]
  | card :: rest, prev, cr, runs => by
    rw [runsLoop]
    split_ifs with hc
    · rw [runsLoop_flatten rest card (cr ++ [card]) runs]
      simp
    · rw [runsLoop_flatten rest card [card] (runs ++ [cr])]
      simp

theorem headD_append_of_ne_nil {l t : List Int} (h : l ≠ []) (d : Int) :
    (l ++ t).headD d = l.headD d := by
  match l, h with
  | c :: cs, _ => simp

/-- The runs accumulated by `runsLoop` are nonempty maximal ascending runs:
every produced run is a nonempty chain of `+1` steps, and at each seam
between consecutive runs the next run does not continue the previous one. -/
theorem runsLoop_shape :
    ∀ (rest : List Int) (prev : Int) (cr : List Int) (runs : List (List Int)),
      cr ≠ [] → cr.getLast? = some prev → List.Chain' (fun a b => b = a + 1) cr →
      (∀ r ∈ runs, r ≠ [] ∧ List.Chain' (fun a b => b = a + 1) r) →
      List.Chain' (fun r s => s.headD 0 ≠ r.getLastD 0 + 1) (runs ++ [cr]) →
      (∀ r ∈ runsLoop prev cr runs rest,
          r ≠ [] ∧ List.Chain' (fun a b => b = a + 1) r) ∧
        List.Chain' (fun r s => s.headD 0 ≠ r.getLastD 0 + 1) (runsLoop prev cr runs rest)
  | [], prev, cr, runs, hne, _, hchain, hruns, hbreak => by
    refine ⟨?_, by simpa [runsLoop] using hbreak⟩
    intro r hr
    rw [runsLoop, List.mem_append] at hr
    rcases hr with hr | hr
    · exact hruns r hr
    · rw [List.mem_singleton] at hr
      exact hr ▸ ⟨hne, hchain⟩
  | card :: rest, prev, cr, runs, hne, hlast, hchain, hruns, hbreak => by
    rw [runsLoop]
    split_ifs with hc
    · refine runsLoop_shape rest card (cr ++ [card]) runs (by simp) (List.getLast?_concat cr)
        ?_ hruns ?_
      · refine List.chain'_append.mpr ⟨hchain, List.chain'_singleton card, ?_⟩
        intro x hx y hy
        rw [hlast, Option.mem_some_iff] at hx
        rw [List.head?_cons, Option.mem_some_iff] at hy
        omega
      · rcases List.chain'_append.mp hbreak with ⟨h1, _, h3⟩
        refine List.chain'_append.mpr ⟨h1, List.chain'_singleton _, ?_⟩
        intro x hx y hy
        rw [List.head?_cons, Option.mem_some_iff] at hy
        have hcr := h3 x hx cr (by simp)
        rw [← hy, headD_append_of_ne_nil hne]
        exact hcr
    · refine runsLoop_shape rest card [card] (runs ++ [cr]) (by simp) rfl
        (List.chain'_singleton card) ?_ ?_
      · intro r hr
        rw [List.mem_append] at hr
        rcases hr with hr | hr
        · exact hruns r hr
        · rw [List.mem_singleton] at hr
          exact hr ▸ ⟨hne, hchain⟩
      · refine List.chain'_append.mpr ⟨hbreak, List.chain'_singleton _, ?_⟩
        intro x hx y hy
        rw [List.getLast?_concat, Option.mem_some_iff] at hx
        rw [List.head?_cons, Option.mem_some_iff] at hy
        rw [← hx, ← hy]
        simp only [List.headD_cons]
        rw [List.getLastD_eq_getLast?, hlast]
        exact hc
  termination_by rest => rest.length

theorem foldl_add_headD :
    ∀ (runs : List (List Int)) (acc : Int),
      runs.foldl (fun a r => a + r.headD 0) acc = acc + (runs.map fun r => r.headD 0).sum
  | [], acc => by simp
  | r :: runs, acc => by
    rw [List.foldl_cons, foldl_add_headD runs (acc + r.headD 0)]
    simp [add_assoc]

/-- In a `+1`-chain, the head is the minimum. -/
theorem chain_succ_headD_le {run : List Int}
    (h : List.Chain' (fun a b => b = a + 1) run) : ∀ x ∈ run, run.headD 0 ≤ x := by
  have hlt : List.Chain' (fun a b : Int => a < b) run :=
    h.imp fun a b hab => hab ▸ lt_add_one a
  have hpair : List.Pairwise (fun a b : Int => a < b) run := List.chain'_iff_pairwise.mp hlt
  intro x hx
  match run, hx with
  | h0 :: t, hx =>
    rw [List.headD_cons]
    rcases List.mem_cons.mp hx with rfl | hx
    · exact le_refl x
    · exact le_of_lt ((List.pairwise_cons.mp hpair).1 x hx)

end NoThanks

namespace NoThanks

/-- C2: `cardPoints` sorts the cards ascending and partitions the sorted
hand into maximal runs of consecutive integers (every run is nonempty, a
`+1`-chain, hence headed by its minimum; adjacent runs never continue each
other), returning the run list together with `total` = the sum of each
run's minimum (head).  The empty hand yields total `0` and no runs;
`cardPoints [27,28,29,30,10]` is `⟨37, [[10],[27,28,29,30]]⟩`, and
`cardPoints [10,11,12]` has the same total as `cardPoints [10]`. -/
theorem cardPoints_spec :
    (∀ cards : List Int,
      (cardPoints cards).runs.flatten = List.insertionSort (· ≤ ·) cards ∧
      (∀ run ∈ (cardPoints cards).runs,
        run ≠ [] ∧ List.Chain' (fun a b => b = a + 1) run ∧ ∀ x ∈ run, run.headD 0 ≤ x) ∧
      List.Chain' (fun r s => s.headD 0 ≠ r.getLastD 0 + 1) (cardPoints cards).runs ∧
      (cardPoints cards).total = ((cardPoints cards).runs.map fun r => r.headD 0).sum) ∧
    cardPoints [] = ⟨0, []⟩ ∧
    cardPoints [27, 28, 29, 30, 10] = ⟨37, [[10], [27, 28, 29, 30]]⟩ ∧
    (cardPoints [10, 11, 12]).total = (cardPoints [10]).total := by
  refine ⟨?_, by decide, by decide, by decide⟩
  intro cards
  cases h : List.insertionSort (· ≤ ·) cards with
  | nil =>
    simp [cardPoints, h]
  | cons c0 rest =>
    have hcp : cardPoints cards =
        ⟨(runsLoop c0 [c0] [] rest).foldl (fun acc run => acc + run.headD 0) 0,
          runsLoop c0 [c0] [] rest⟩ := by
      simp [cardPoints, h]
    have hshape := runsLoop_shape rest c0 [c0] [] (by simp) rfl
      (List.chain'_singleton c0) (by simp) (by simp)
    refine ⟨?_, ?_, ?_, ?_⟩
    · rw [hcp, runsLoop_flatten]
      simp [h]
    · rw [hcp]
      intro run hrun
      obtain ⟨hne, hchain⟩ := hshape.1 run hrun
      exact ⟨hne, hchain, chain_succ_headD_le hchain⟩
    · rw [hcp]
      exact hshape.2
    · rw [hcp]
      dsimp only
      rw [foldl_add_headD]
      exact zero_add _

end NoThanks

namespace NoThanks

/-! ## Stability of the score sort -/

theorem filter_orderedInsert_total_eq (t : Int) (a : ScoreEntry) (l : List ScoreEntry)
    (ha : a.total = t) :
    (l.orderedInsert (fun x y => x.total ≤ y.total) a).filter (fun e => e.total = t) =
      a :: l.filter (fun e => e.total = t) := by
  induction l with
  | nil => simp [List.orderedInsert, ha]
  | cons b l ih =>
    rw [List.orderedInsert]
    split_ifs with hr
    · simp [List.filter_cons, ha]
    · have hbt : ¬b.total = t := by omega
      simp [List.filter_cons, hbt, ih]

theorem filter_orderedInsert_total_ne (t : Int) (a : ScoreEntry) (l : List ScoreEntry)
    (ha : ¬a.total = t) :
    (l.orderedInsert (fun x y => x.total ≤ y.total) a).filter (fun e => e.total = t) =
      l.filter (fun e => e.total = t) := by
  induction l with
  | nil => simp [List.orderedInsert, ha]
  | cons b l ih =>
    rw [List.orderedInsert]
    split_ifs with hr
    · simp [List.filter_cons, ha]
    · simp [List.filter_cons, ih]

/-- The stable sort used by `computeScores` preserves, for each total `t`,
the original relative order of the entries with that total. -/
theorem filter_insertionSort_total (t : Int) :
    ∀ l : List ScoreEntry,
      (l.insertionSort (fun x y => x.total ≤ y.total)).filter (fun e => e.total = t) =
        l.filter (fun e => e.total = t)
  | [] => rfl
  | a :: l => by
    rw [List.insertionSort]
    by_cases ha : a.total = t
    · rw [filter_orderedInsert_total_eq t a _ ha, filter_insertionSort_total t l]
      simp [List.filter_cons, ha]
    · rw [filter_orderedInsert_total_ne t a _ ha, filter_insertionSort_total t l]
      simp [List.filter_cons, ha]

/-- C5: `computeScores` produces exactly one entry per player (a
permutation of the per-player entries, each with
`total = cardPoints − chips`), sorted ascending by `total`, and entries
with equal totals keep the players' original relative order; a single
player with 12 chips and hand `[10, 11]` scores −2. -/
theorem computeScores_spec :
    (∀ players : List Player,
      (computeScores players).Perm (players.map mkScoreEntry) ∧
      List.Sorted (fun a b : ScoreEntry => a.total ≤ b.total) (computeScores players) ∧
      ∀ t : Int, (computeScores players).filter (fun e => e.total = t) =
        (players.map mkScoreEntry).filter (fun e => e.total = t)) ∧
    (∀ p : Player, (mkScoreEntry p).total = (cardPoints p.cards).total - p.chips) ∧
    computeScores
        [{ id := "p1", name := "A", isHuman := true, botStyle := none,
           chips := 12, cards := [10, 11] }] =
      [{ playerId := "p1", name := "A", total := -2, cardPoints := 10,
         chipPoints := 12, runs := [[10, 11]] }] := by
  refine ⟨?_, fun p => rfl, by decide⟩
  intro players
  exact ⟨List.perm_insertionSort _ _, List.sorted_insertionSort _ _,
    fun t => filter_insertionSort_total t _⟩

end NoThanks

namespace NoThanks

/-! ## Step characterizations of `passCard` and `takeCard` -/

theorem passCard_eq (s : GameState) (h1 : s.status = Status.playing)
    (h2 : s.activeCard ≠ none)
    (h3 : ¬(s.players.getD s.currentPlayerIndex defaultPlayer).chips ≤ 0) :
    passCard s =
      { s with
        players := jsMapIdx
          (fun idx p =>
            if idx = s.currentPlayerIndex then { p with chips := p.chips - 1 } else p)
          s.players
        chipsOnCard := s.chipsOnCard + 1
        currentPlayerIndex := nextPlayerIndex s } := by
  simp only [passCard]
  rw [if_neg (by simp [h1, h2]), if_neg h3]

theorem passCard_noop_guard (s : GameState)
    (h : s.status ≠ Status.playing ∨ s.activeCard = none) : passCard s = s := by
  simp only [passCard]
  rw [if_pos h]

theorem passCard_noop_chips (s : GameState)
    (h : (s.players.getD s.currentPlayerIndex defaultPlayer).chips ≤ 0) :
    passCard s = s := by
  by_cases h1 : s.status ≠ Status.playing ∨ s.activeCard = none
  · exact passCard_noop_guard s h1
  · simp only [passCard]
    rw [if_neg h1, if_pos h]

theorem takeCard_noop_status (s : GameState) (h : s.status ≠ Status.playing) :
    takeCard s = s := by
  simp only [takeCard]
  rw [if_pos h]

theorem takeCard_noop_active (s : GameState) (h : s.activeCard = none) :
    takeCard s = s := by
  simp only [takeCard, h]
  rw [ite_self]

theorem takeCard_eq_cons (s : GameState) (card d0 : Int) (ds : List Int)
    (h1 : s.status = Status.playing) (h2 : s.activeCard = some card)
    (hd : s.deck = d0 :: ds) :
    takeCard s =
      { s with
        players := jsMapIdx
          (fun idx p =>
            if idx = s.currentPlayerIndex then
              { p with
                cards := List.insertionSort (· ≤ ·) (p.cards ++ [card])
                chips := p.chips + s.chipsOnCard }
            else p)
          s.players
        activeCard := some d0
        deck := ds
        chipsOnCard := 0 } := by
  simp [takeCard, h1, h2, hd]

theorem takeCard_eq_nil (s : GameState) (card : Int)
    (h1 : s.status = Status.playing) (h2 : s.activeCard = some card)
    (hd : s.deck = []) :
    takeCard s =
      { s with
        players := jsMapIdx
          (fun idx p =>
            if idx = s.currentPlayerIndex then
              { p with
                cards := List.insertionSort (· ≤ ·) (p.cards ++ [card])
                chips := p.chips + s.chipsOnCard }
            else p)
          s.players
        activeCard := none
        deck := []
        chipsOnCard := 0
        status := Status.done
        scores := some (computeScores (jsMapIdx
          (fun idx p =>
            if idx = s.currentPlayerIndex then
              { p with
                cards := List.insertionSort (· ≤ ·) (p.cards ++ [card])
                chips := p.chips + s.chipsOnCard }
            else p)
          s.players)) } := by
  simp [takeCard, endStateIfNeeded, h1, h2, hd]

end NoThanks

namespace NoThanks

/-- C3: with status `playing` and an active card, `takeCard` inserts the
active card into the current player's hand keeping it sorted ascending,
adds `chipsOnCard` to that player's chips, resets `chipsOnCard` to 0, pops
the deck head as the new active card (`none` on an empty deck), and leaves
`currentPlayerIndex` unchanged. -/
theorem takeCard_effects (s : GameState) (card : Int)
    (h1 : s.status = Status.playing) (h2 : s.activeCard = some card)
    (h3 : s.currentPlayerIndex < s.players.length) :
    ((takeCard s).players.getD s.currentPlayerIndex defaultPlayer).cards.Perm
        (card :: (s.players.getD s.currentPlayerIndex defaultPlayer).cards) ∧
    List.Sorted (· ≤ ·)
      ((takeCard s).players.getD s.currentPlayerIndex defaultPlayer).cards ∧
    ((takeCard s).players.getD s.currentPlayerIndex defaultPlayer).chips =
      (s.players.getD s.currentPlayerIndex defaultPlayer).chips + s.chipsOnCard ∧
    (takeCard s).chipsOnCard = 0 ∧
    (takeCard s).activeCard = s.deck.head? ∧
    (takeCard s).deck = s.deck.tail ∧
    (takeCard s).currentPlayerIndex = s.currentPlayerIndex := by
  have hget := jsMapIdx_updAt_getD_eq defaultPlayer
    (fun p =>
      { p with
        cards := List.insertionSort (· ≤ ·) (p.cards ++ [card])
        chips := p.chips + s.chipsOnCard })
    s.players s.currentPlayerIndex h3
  cases hd : s.deck with
  | nil =>
    rw [takeCard_eq_nil s card h1 h2 hd]
    dsimp only
    rw [hget]
    exact ⟨(List.perm_insertionSort _ _).trans (List.perm_append_singleton _ _),
      List.sorted_insertionSort _ _, rfl, rfl, by simp [hd], by simp [hd], rfl⟩
  | cons d0 ds =>
    rw [takeCard_eq_cons s card d0 ds h1 h2 hd]
    dsimp only
    rw [hget]
    exact ⟨(List.perm_insertionSort _ _).trans (List.perm_append_singleton _ _),
      List.sorted_insertionSort _ _, rfl, rfl, by simp [hd], by simp [hd], rfl⟩

theorem takeCard_effects_witness :
    sampleState.status = Status.playing ∧ sampleState.activeCard = some 8 ∧
    sampleState.currentPlayerIndex < sampleState.players.length ∧
    (((takeCard sampleState).players.getD sampleState.currentPlayerIndex
          defaultPlayer).cards.Perm
        (8 :: (sampleState.players.getD sampleState.currentPlayerIndex
          defaultPlayer).cards) ∧
      List.Sorted (· ≤ ·)
        ((takeCard sampleState).players.getD sampleState.currentPlayerIndex
          defaultPlayer).cards ∧
      ((takeCard sampleState).players.getD sampleState.currentPlayerIndex
          defaultPlayer).chips =
        (sampleState.players.getD sampleState.currentPlayerIndex defaultPlayer).chips
          + sampleState.chipsOnCard ∧
      (takeCard sampleState).chipsOnCard = 0 ∧
      (takeCard sampleState).activeCard = sampleState.deck.head? ∧
      (takeCard sampleState).deck = sampleState.deck.tail ∧
      (takeCard sampleState).currentPlayerIndex = sampleState.currentPlayerIndex) :=
  ⟨rfl, rfl, by decide, takeCard_effects sampleState 8 rfl rfl (by decide)⟩

/-- C4: with status `playing`, an active card and a current player holding
chips, `passCard` decrements exactly the current player's chips by 1 (all
other players unchanged), increments `chipsOnCard` by 1, advances
`currentPlayerIndex` cyclically, and leaves `activeCard` and the deck
untouched. -/
theorem passCard_effects (s : GameState) (card : Int)
    (h1 : s.status = Status.playing) (h2 : s.activeCard = some card)
    (h3 : (s.players.getD s.currentPlayerIndex defaultPlayer).chips > 0) :
    (passCard s).players.getD s.currentPlayerIndex defaultPlayer =
      { s.players.getD s.currentPlayerIndex defaultPlayer with
        chips := (s.players.getD s.currentPlayerIndex defaultPlayer).chips - 1 } ∧
    (∀ i : Nat, i ≠ s.currentPlayerIndex →
      (passCard s).players.getD i defaultPlayer = s.players.getD i defaultPlayer) ∧
    (passCard s).chipsOnCard = s.chipsOnCard + 1 ∧
    (passCard s).currentPlayerIndex = (s.currentPlayerIndex + 1) % s.players.length ∧
    (passCard s).activeCard = s.activeCard ∧
    (passCard s).deck = s.deck := by
  have hlt : s.currentPlayerIndex < s.players.length := by
    by_contra hge
    push_neg at hge
    rw [List.getD_eq_default _ _ hge] at h3
    exact absurd h3 (by norm_num [defaultPlayer])
  rw [passCard_eq s h1 (by simp [h2]) (by omega)]
  dsimp only
  refine ⟨?_, ?_, rfl, rfl, rfl, rfl⟩
  · exact jsMapIdx_updAt_getD_eq defaultPlayer (fun p => { p with chips := p.chips - 1 })
      s.players s.currentPlayerIndex hlt
  · intro i hi
    exact jsMapIdx_updAt_getD_ne defaultPlayer (fun p => { p with chips := p.chips - 1 })
      s.players s.currentPlayerIndex i hi

theorem passCard_effects_witness :
    sampleState.status = Status.playing ∧ sampleState.activeCard = some 8 ∧
    (sampleState.players.getD sampleState.currentPlayerIndex defaultPlayer).chips > 0 ∧
    ((passCard sampleState).players.getD sampleState.currentPlayerIndex defaultPlayer =
      { sampleState.players.getD sampleState.currentPlayerIndex defaultPlayer with
        chips := (sampleState.players.getD sampleState.currentPlayerIndex
          defaultPlayer).chips - 1 } ∧
    (∀ i : Nat, i ≠ sampleState.currentPlayerIndex →
      (passCard sampleState).players.getD i defaultPlayer =
        sampleState.players.getD i defaultPlayer) ∧
    (passCard sampleState).chipsOnCard = sampleState.chipsOnCard + 1 ∧
    (passCard sampleState).currentPlayerIndex =
      (sampleState.currentPlayerIndex + 1) % sampleState.players.length ∧
    (passCard sampleState).activeCard = sampleState.activeCard ∧
    (passCard sampleState).deck = sampleState.deck) :=
  ⟨rfl, rfl, by decide, passCard_effects sampleState 8 rfl rfl (by decide)⟩

/-- C6 (amended): `takeCard` is total and never throws, returning the
state unchanged whenever its preconditions fail; `passCard` returns the
state unchanged when the status is not `playing` or there is no active
card, and likewise when the current player exists but has no chips — but
it is not total: exactly on the playing states with an active card and no
current player (index out of range) it throws instead of no-opping. -/
theorem transition_noop_spec (s : GameState) :
    ((s.status ≠ Status.playing ∨ s.activeCard = none) →
      passCardE s = some s ∧ passCard s = s ∧ takeCard s = s) ∧
    (s.currentPlayerIndex < s.players.length →
      (s.players.getD s.currentPlayerIndex defaultPlayer).chips ≤ 0 →
      passCardE s = some s ∧ passCard s = s) ∧
    (passCardE s = none ↔
      s.status = Status.playing ∧ s.activeCard ≠ none ∧
        s.players.length ≤ s.currentPlayerIndex) := by
  refine ⟨?_, ?_, ?_⟩
  · intro h
    refine ⟨?_, passCard_noop_guard s h, ?_⟩
    · simp only [passCardE]
      rw [if_pos h]
    · rcases h with h | h
      · exact takeCard_noop_status s h
      · exact takeCard_noop_active s h
  · intro hlt hch
    refine ⟨?_, passCard_noop_chips s hch⟩
    by_cases hg : s.status ≠ Status.playing ∨ s.activeCard = none
    · simp only [passCardE]
      rw [if_pos hg]
    · have hp : s.players[s.currentPlayerIndex]? =
          some (s.players.getD s.currentPlayerIndex defaultPlayer) := by
        rw [List.getElem?_eq_getElem hlt, List.getD_eq_getElem s.players defaultPlayer hlt]
      simp only [passCardE, hp]
      rw [if_neg hg, if_pos hch]
  · by_cases hg : s.status ≠ Status.playing ∨ s.activeCard = none
    · simp only [passCardE]
      rw [if_pos hg]
      constructor
      · intro h
        exact Option.noConfusion h
      · rintro ⟨h1, h2, _⟩
        rcases hg with hg | hg
        · exact absurd h1 hg
        · exact absurd hg h2
    · push_neg at hg
      cases hp : s.players[s.currentPlayerIndex]? with
      | none =>
        have hlen : s.players.length ≤ s.currentPlayerIndex :=
          List.getElem?_eq_none_iff.mp hp
        simp only [passCardE, hp]
        rw [if_neg (by simp [hg.1, hg.2])]
        exact iff_of_true rfl ⟨hg.1, hg.2, hlen⟩
      | some player =>
        simp only [passCardE, hp]
        rw [if_neg (by simp [hg.1, hg.2])]
        constructor
        · intro h
          split_ifs at h
        · rintro ⟨_, _, hlen⟩
          rw [List.getElem?_eq_none_iff.mpr hlen] at hp
          exact Option.noConfusion hp

theorem transition_noop_witness :
    (passCardE sampleDone = some sampleDone ∧ passCard sampleDone = sampleDone ∧
      takeCard sampleDone = sampleDone) ∧
    (passCardE sampleBroke = some sampleBroke ∧ passCard sampleBroke = sampleBroke) :=
  ⟨(transition_noop_spec sampleDone).1 (Or.inl (by decide)),
    (transition_noop_spec sampleBroke).2.1 (by decide) (by decide)⟩

/-- C6 counterexample: the zero-player game is a `playing` state with an
active card on which the source `passCard` reads `players[0].chips` from
`undefined` and throws a TypeError instead of returning the state
unchanged, so the operation is not total. -/
theorem transition_noop_counterexample :
    (createGame [] fun _ => 0).status = Status.playing ∧
    (createGame [] fun _ => 0).activeCard ≠ none ∧
    passCardE (createGame [] fun _ => 0) = none := by decide

end NoThanks

namespace NoThanks

/-- C7: `takeCard` on a playing state with an active card ends the game
exactly when the deck is empty (then `scores` is populated from the
post-take players); `passCard` never changes the status; a `done` state is
a fixed point of both operations, so no sequence of `passCard`/`takeCard`
applications ever leaves `done`. -/
theorem status_transition_spec :
    (∀ (s : GameState) (card : Int),
      s.status = Status.playing → s.activeCard = some card →
      (((takeCard s).status = Status.done ↔ s.deck = []) ∧
        (s.deck = [] →
          (takeCard s).scores = some (computeScores (takeCard s).players)))) ∧
    (∀ s : GameState, (passCard s).status = s.status) ∧
    (∀ s : GameState, s.status = Status.done → passCard s = s ∧ takeCard s = s) ∧
    (∀ (s : GameState) (ops : List (GameState → GameState)),
      (∀ op ∈ ops, op = passCard ∨ op = takeCard) → s.status = Status.done →
      (ops.foldl (fun t op => op t) s).status = Status.done) := by
  refine ⟨?_, ?_, ?_, ?_⟩
  · intro s card h1 h2
    cases hd : s.deck with
    | nil =>
      rw [takeCard_eq_nil s card h1 h2 hd]
      exact ⟨⟨fun _ => rfl, fun _ => rfl⟩, fun _ => rfl⟩
    | cons d0 ds =>
      rw [takeCard_eq_cons s card d0 ds h1 h2 hd]
      dsimp only
      rw [h1]
      exact ⟨by simp, fun hdeck => absurd hdeck (by simp)⟩
  · intro s
    by_cases hg : s.status ≠ Status.playing ∨ s.activeCard = none
    · rw [passCard_noop_guard s hg]
    · push_neg at hg
      by_cases hc : (s.players.getD s.currentPlayerIndex defaultPlayer).chips ≤ 0
      · rw [passCard_noop_chips s hc]
      · rw [passCard_eq s hg.1 hg.2 hc]
  · intro s h
    exact ⟨passCard_noop_guard s (Or.inl (by simp [h])),
      takeCard_noop_status s (by simp [h])⟩
  · intro s ops
    induction ops generalizing s with
    | nil =>
      intro _ h
      simpa using h
    | cons op ops ih =>
      intro hops hdone
      rw [List.foldl_cons]
      refine ih _ (fun o ho => hops o (List.mem_cons_of_mem _ ho)) ?_
      rcases hops op (List.mem_cons_self _ _) with rfl | rfl
      · rw [passCard_noop_guard s (Or.inl (by simp [hdone]))]
        exact hdone
      · rw [takeCard_noop_status s (by simp [hdone])]
        exact hdone

theorem status_transition_witness :
    sampleEndgame.status = Status.playing ∧ sampleEndgame.activeCard = some 30 ∧
    (((takeCard sampleEndgame).status = Status.done ↔ sampleEndgame.deck = []) ∧
      (sampleEndgame.deck = [] →
        (takeCard sampleEndgame).scores =
          some (computeScores (takeCard sampleEndgame).players))) ∧
    sampleDone.status = Status.done ∧
    (passCard sampleDone = sampleDone ∧ takeCard sampleDone = sampleDone) :=
  ⟨rfl, rfl, status_transition_spec.1 sampleEndgame 30 rfl rfl, rfl,
    status_transition_spec.2.2.1 sampleDone rfl⟩

/-- C8: with an active card and a chip-holding current player, the `greedy`
bot takes iff `runLink ∨ delta ≤ 2 ∨ chipsOnCard ≥ 4`, and the `standard`
bot takes iff
`delta ≤ 0 ∨ (runLink ∧ delta ≤ 3) ∨ (deck < 6 cards ∧ delta ≤ 4) ∨
(chipsOnCard ≥ 5 ∧ delta ≤ 5)`, where `delta`/`runLink` are the shared
signals computed from `cardPoints` and `addAndScore`. -/
theorem decideBotAction_styles (s : GameState) (card : Int) (chance : ℚ)
    (h1 : s.activeCard = some card) (h2 : (getActivePlayer s).chips > 0) :
    (decideBotAction s BotStyle.greedy chance = BotAction.take ↔
      (formsRun card (getActivePlayer s).cards = true ∨ botDelta s card ≤ 2 ∨
        s.chipsOnCard ≥ 4)) ∧
    (decideBotAction s BotStyle.standard chance = BotAction.take ↔
      (botDelta s card ≤ 0 ∨
        (formsRun card (getActivePlayer s).cards = true ∧ botDelta s card ≤ 3) ∨
        (s.deck.length < 6 ∧ botDelta s card ≤ 4) ∨
        (s.chipsOnCard ≥ 5 ∧ botDelta s card ≤ 5))) := by
  simp only [decideBotAction, h1, botDelta]
  constructor
  · rw [if_neg (not_le.mpr h2)]
    split_ifs with hr hd hc
    · exact iff_of_true rfl (Or.inl hr)
    · exact iff_of_true rfl (Or.inr (Or.inl hd))
    · exact iff_of_true rfl (Or.inr (Or.inr hc))
    · exact iff_of_false (by simp) (by tauto)
  · rw [if_neg (not_le.mpr h2)]
    split_ifs with h0 h13 h4 h5
    · exact iff_of_true rfl (Or.inl h0)
    · exact iff_of_true rfl (Or.inr (Or.inl h13))
    · exact iff_of_true rfl (Or.inr (Or.inr (Or.inl h4)))
    · exact iff_of_true rfl (Or.inr (Or.inr (Or.inr h5)))
    · exact iff_of_false (by simp) (by tauto)

theorem decideBotAction_styles_witness :
    sampleState.activeCard = some 8 ∧ (getActivePlayer sampleState).chips > 0 ∧
    ((decideBotAction sampleState BotStyle.greedy 0 = BotAction.take ↔
      (formsRun 8 (getActivePlayer sampleState).cards = true ∨
        botDelta sampleState 8 ≤ 2 ∨ sampleState.chipsOnCard ≥ 4)) ∧
    (decideBotAction sampleState BotStyle.standard 0 = BotAction.take ↔
      (botDelta sampleState 8 ≤ 0 ∨
        (formsRun 8 (getActivePlayer sampleState).cards = true ∧
          botDelta sampleState 8 ≤ 3) ∨
        (sampleState.deck.length < 6 ∧ botDelta sampleState 8 ≤ 4) ∨
        (sampleState.chipsOnCard ≥ 5 ∧ botDelta sampleState 8 ≤ 5)))) :=
  ⟨rfl, by decide, decideBotAction_styles sampleState 8 0 rfl (by decide)⟩

/-- C9: for every state and style, the bot is forced to `take` when there
is no active card or the acting player has no chips. -/
theorem decideBotAction_forced_take (s : GameState) (style : BotStyle) (chance : ℚ)
    (h : s.activeCard = none ∨ (getActivePlayer s).chips = 0) :
    decideBotAction s style chance = BotAction.take := by
  rcases h with h | h
  · simp [decideBotAction, h]
  · cases hac : s.activeCard with
    | none => simp [decideBotAction, hac]
    | some card =>
      simp only [decideBotAction, hac]
      rw [if_pos (le_of_eq h)]

theorem decideBotAction_forced_take_witness :
    (sampleDone.activeCard = none ∧
      decideBotAction sampleDone BotStyle.standard 0 = BotAction.take) ∧
    ((getActivePlayer sampleBroke).chips = 0 ∧
      decideBotAction sampleBroke BotStyle.greedy 0 = BotAction.take) :=
  ⟨⟨rfl, decideBotAction_forced_take sampleDone BotStyle.standard 0 (Or.inl rfl)⟩,
    ⟨by decide, decideBotAction_forced_take sampleBroke BotStyle.greedy 0
      (Or.inr (by decide))⟩⟩

end NoThanks

namespace NoThanks

/-! ## Case analyses and conservation lemmas for the two transitions -/

theorem passCard_cases (s : GameState) :
    passCard s = s ∨
    (s.status = Status.playing ∧ s.activeCard ≠ none ∧
      ¬(s.players.getD s.currentPlayerIndex defaultPlayer).chips ≤ 0 ∧
      passCard s =
        { s with
          players := jsMapIdx
            (fun idx p =>
              if idx = s.currentPlayerIndex then { p with chips := p.chips - 1 } else p)
            s.players
          chipsOnCard := s.chipsOnCard + 1
          currentPlayerIndex := nextPlayerIndex s }) := by
  by_cases hg : s.status ≠ Status.playing ∨ s.activeCard = none
  · exact Or.inl (passCard_noop_guard s hg)
  · push_neg at hg
    by_cases hc : (s.players.getD s.currentPlayerIndex defaultPlayer).chips ≤ 0
    · exact Or.inl (passCard_noop_chips s hc)
    · exact Or.inr ⟨hg.1, hg.2, hc, passCard_eq s hg.1 hg.2 hc⟩

theorem takeCard_cases (s : GameState) :
    takeCard s = s ∨
    (∃ card : Int, s.status = Status.playing ∧ s.activeCard = some card ∧
      (takeCard s).players = jsMapIdx
        (fun idx p =>
          if idx = s.currentPlayerIndex then
            { p with
              cards := List.insertionSort (· ≤ ·) (p.cards ++ [card])
              chips := p.chips + s.chipsOnCard }
          else p)
        s.players ∧
      (takeCard s).deck = s.deck.tail ∧
      (takeCard s).activeCard = s.deck.head? ∧
      (takeCard s).removed = s.removed ∧
      (takeCard s).chipsOnCard = 0 ∧
      (takeCard s).currentPlayerIndex = s.currentPlayerIndex) := by
  by_cases h1 : s.status = Status.playing
  case neg => exact Or.inl (takeCard_noop_status s h1)
  cases hac : s.activeCard with
  | none => exact Or.inl (takeCard_noop_active s hac)
  | some card =>
    refine Or.inr ⟨card, h1, rfl, ?_⟩
    cases hd : s.deck with
    | nil =>
      rw [takeCard_eq_nil s card h1 hac hd]
      exact ⟨rfl, by simp [hd], by simp [hd], rfl, rfl, rfl⟩
    | cons d0 ds =>
      rw [takeCard_eq_cons s card d0 ds h1 hac hd]
      exact ⟨rfl, by simp [hd], by simp [hd], rfl, rfl, rfl⟩

theorem getD_chips_pos_lt (s : GameState)
    (h : ¬(s.players.getD s.currentPlayerIndex defaultPlayer).chips ≤ 0) :
    s.currentPlayerIndex < s.players.length := by
  by_contra hge
  push_neg at hge
  rw [List.getD_eq_default _ _ hge] at h
  exact h (by norm_num [defaultPlayer])

theorem chipTotal_passCard (s : GameState) : chipTotal (passCard s) = chipTotal s := by
  rcases passCard_cases s with h | ⟨h1, h2, h3, heq⟩
  · rw [h]
  · have hlt := getD_chips_pos_lt s h3
    rw [heq]
    simp only [chipTotal]
    rw [sum_map_jsMapIdx_updAt defaultPlayer (fun p => { p with chips := p.chips - 1 })
      Player.chips s.players s.currentPlayerIndex hlt]
    dsimp only
    ring

theorem chipTotal_takeCard (s : GameState)
    (h : s.currentPlayerIndex < s.players.length) :
    chipTotal (takeCard s) = chipTotal s := by
  rcases takeCard_cases s with heq | ⟨card, h1, h2, hp, hdk, hac, hrm, hcoc, hidx⟩
  · rw [heq]
  · simp only [chipTotal, hp, hcoc]
    rw [sum_map_jsMapIdx_updAt defaultPlayer
      (fun p =>
        { p with
          cards := List.insertionSort (· ≤ ·) (p.cards ++ [card])
          chips := p.chips + s.chipsOnCard })
      Player.chips s.players s.currentPlayerIndex h]
    dsimp only
    ring

theorem passCard_players_length (s : GameState) :
    (passCard s).players.length = s.players.length := by
  rcases passCard_cases s with h | ⟨_, _, _, heq⟩
  · rw [h]
  · rw [heq]
    dsimp only
    exact length_jsMapIdx _ _

theorem takeCard_players_length (s : GameState) :
    (takeCard s).players.length = s.players.length := by
  rcases takeCard_cases s with heq | ⟨card, _, _, hp, _⟩
  · rw [heq]
  · rw [hp]
    exact length_jsMapIdx _ _

theorem passCard_idx_lt (s : GameState) (hne : s.players ≠ [])
    (h : s.currentPlayerIndex < s.players.length) :
    (passCard s).currentPlayerIndex < (passCard s).players.length := by
  rcases passCard_cases s with heq | ⟨_, _, _, heq⟩
  · rw [heq]
    exact h
  · rw [heq]
    dsimp only
    rw [length_jsMapIdx]
    exact Nat.mod_lt _ (List.length_pos.mpr hne)

theorem takeCard_idx_lt (s : GameState)
    (h : s.currentPlayerIndex < s.players.length) :
    (takeCard s).currentPlayerIndex < (takeCard s).players.length := by
  rcases takeCard_cases s with heq | ⟨card, _, _, hp, _, _, _, _, hidx⟩
  · rw [heq]
    exact h
  · rw [hidx, takeCard_players_length]
    exact h

end NoThanks

namespace NoThanks

/-! ## The card-partition invariant -/

theorem hands_startPlayers (setups : List SetupPlayer) :
    ((startPlayers setups).map Player.cards).flatten = [] := by
  simp [startPlayers, List.map_map, Function.comp_def]

/-- Splitting a list into its optional head and its tail preserves the
multiset of elements. -/
theorem head_tail_ms (l : List Int) :
    (l.tail : Multiset Int) + ((l.head?.toList : List Int) : Multiset Int) =
      (l : Multiset Int) := by
  cases l with
  | nil => simp
  | cons a t =>
    simp only [List.tail_cons, List.head?_cons, Option.toList_some, Multiset.coe_singleton,
      ← Multiset.cons_coe, ← Multiset.singleton_add, Multiset.coe_nil, add_zero]
    rw [add_comm]

theorem cardMultiset_createGame (setups : List SetupPlayer) (r : Nat → Nat) :
    cardMultiset (createGame setups r) = fullCards := by
  have hpd := prepareDeck_ms r
  have hht := head_tail_ms (prepareDeck r).deck
  simp only [cardMultiset, createGame, hands_startPlayers, fullCards]
  rw [← hpd, ← hht]
  simp only [Multiset.coe_nil]
  abel

theorem cardMultiset_passCard (s : GameState) :
    cardMultiset (passCard s) = cardMultiset s := by
  rcases passCard_cases s with h | ⟨h1, h2, h3, heq⟩
  · rw [h]
  · rw [heq]
    simp only [cardMultiset]
    rw [jsMapIdx_map (g := Player.cards) (fun i a => by split_ifs <;> rfl)]

theorem cardMultiset_takeCard (s : GameState)
    (h : s.currentPlayerIndex < s.players.length) :
    cardMultiset (takeCard s) = cardMultiset s := by
  rcases takeCard_cases s with heq | ⟨card, h1, h2, hp, hdk, hac, hrm, hcoc, hidx⟩
  · rw [heq]
  · have hml := flatten_map_jsMapIdx_updAt defaultPlayer
      (fun p =>
        { p with
          cards := List.insertionSort (· ≤ ·) (p.cards ++ [card])
          chips := p.chips + s.chipsOnCard })
      Player.cards s.players s.currentPlayerIndex h
    dsimp only at hml
    have hsort : ((List.insertionSort (· ≤ ·)
          ((s.players.getD s.currentPlayerIndex defaultPlayer).cards ++ [card]) : List Int)
        : Multiset Int) =
        ((s.players.getD s.currentPlayerIndex defaultPlayer).cards : Multiset Int)
          + {card} := by
      rw [Multiset.coe_eq_coe.mpr (List.perm_insertionSort _ _)]
      simp only [← Multiset.coe_add]
      push_cast
      rfl
    rw [hsort] at hml
    have hkey : (((jsMapIdx
        (fun idx p =>
          if idx = s.currentPlayerIndex then
            { p with
              cards := List.insertionSort (· ≤ ·) (p.cards ++ [card])
              chips := p.chips + s.chipsOnCard }
          else p)
        s.players).map Player.cards).flatten : Multiset Int) =
        ((s.players.map Player.cards).flatten : Multiset Int) + {card} := by
      have hml' : (((jsMapIdx
          (fun idx p =>
            if idx = s.currentPlayerIndex then
              { p with
                cards := List.insertionSort (· ≤ ·) (p.cards ++ [card])
                chips := p.chips + s.chipsOnCard }
            else p)
          s.players).map Player.cards).flatten : Multiset Int)
            + ((s.players.getD s.currentPlayerIndex defaultPlayer).cards : Multiset Int) =
          (((s.players.map Player.cards).flatten : Multiset Int) + {card})
            + ((s.players.getD s.currentPlayerIndex defaultPlayer).cards : Multiset Int) := by
        rw [hml]
        abel
      exact add_right_cancel hml'
    have hdeck := head_tail_ms s.deck
    simp only [cardMultiset, hp, hdk, hac, hrm, hkey, h2]
    rw [← hdeck]
    simp only [Option.toList_some, Multiset.coe_singleton]
    abel

end NoThanks

namespace NoThanks

/-! ## Reachability invariants and the two invariant claims -/

theorem reachableNE_inv {s : GameState} (h : ReachableNE s) :
    s.players ≠ [] ∧ s.currentPlayerIndex < s.players.length ∧
      cardMultiset s = fullCards := by
  induction h with
  | base setups r hne =>
    refine ⟨?_, ?_, cardMultiset_createGame setups r⟩
    · simp [createGame, startPlayers, hne]
    · simp only [createGame]
      simpa [startPlayers] using List.length_pos.mpr hne
  | @pass s' hr ih =>
    obtain ⟨hne, hlt, hms⟩ := ih
    refine ⟨?_, passCard_idx_lt s' hne hlt, by rw [cardMultiset_passCard s']; exact hms⟩
    intro hcon
    exact hne (List.eq_nil_of_length_eq_zero
      (by rw [← passCard_players_length s', hcon]; rfl))
  | @take s' hr ih =>
    obtain ⟨hne, hlt, hms⟩ := ih
    refine ⟨?_, takeCard_idx_lt s' hlt, by rw [cardMultiset_takeCard s' hlt]; exact hms⟩
    intro hcon
    exact hne (List.eq_nil_of_length_eq_zero
      (by rw [← takeCard_players_length s', hcon]; rfl))

/-- C1 (amended): in every state reachable from a `createGame` with at
least one player, the multiset union of the deck, the removed pile, the
active card and all hands is exactly the full card range; `createGame`
establishes the invariant and `passCard`/`takeCard` preserve it along such
games. -/
theorem card_partition_spec (s : GameState) (h : ReachableNE s) :
    cardMultiset s = fullCards :=
  (reachableNE_inv h).2.2

theorem card_partition_witness :
    cardMultiset (createGame [sampleSetup] fun _ => 0) = fullCards :=
  card_partition_spec _ (ReachableNE.base [sampleSetup] (fun _ => 0) (by simp))

/-- C1 counterexample: with an empty player list, `takeCard` silently drops
the active card, so the claimed invariant fails in a reachable state whose
status is still `playing`. -/
theorem card_partition_counterexample :
    Reachable (takeCard (createGame [] fun _ => 0)) ∧
    (takeCard (createGame [] fun _ => 0)).status = Status.playing ∧
    cardMultiset (takeCard (createGame [] fun _ => 0)) ≠ fullCards :=
  ⟨Reachable.take (Reachable.base [] fun _ => 0), by decide, by decide⟩

theorem reachable_chip_inv {s : GameState} (h : Reachable s) :
    chipTotal s = STARTING_CHIPS * s.players.length ∧
      (s.players ≠ [] → s.currentPlayerIndex < s.players.length) := by
  induction h with
  | base setups r =>
    constructor
    · simp only [chipTotal, createGame, startPlayers, STARTING_CHIPS]
      induction setups with
      | nil => simp
      | cons a l ih =>
        simp only [List.map_cons, List.sum_cons, List.length_cons] at ih ⊢
        push_cast
        linarith
    · intro hne
      simp only [createGame] at hne ⊢
      simpa [startPlayers] using List.length_pos.mpr (by simpa [startPlayers] using hne)
  | @pass s' hr ih =>
    obtain ⟨hct, hidx⟩ := ih
    refine ⟨?_, ?_⟩
    · rw [chipTotal_passCard s', hct, passCard_players_length s']
    · intro hne
      have hne' : s'.players ≠ [] := by
        intro hcon
        exact hne (List.eq_nil_of_length_eq_zero
          (by rw [passCard_players_length s', hcon]; rfl))
      exact passCard_idx_lt s' hne' (hidx hne')
  | @take s' hr ih =>
    obtain ⟨hct, hidx⟩ := ih
    by_cases hne' : s'.players = []
    · rcases takeCard_cases s' with heq | ⟨card, h1, h2, hp, hdk, hac, hrm, hcoc, hidx2⟩
      · rw [heq]
        exact ⟨hct, hidx⟩
      · constructor
        · simp only [chipTotal, hp, hcoc, hne', takeCard_players_length s', jsMapIdx]
          simp [hne']
        · intro hne
          rw [hp, hne'] at hne
          exact absurd rfl hne
    · have hlt := hidx hne'
      refine ⟨?_, ?_⟩
      · rw [chipTotal_takeCard s' hlt, hct, takeCard_players_length s']
      · intro _
        exact takeCard_idx_lt s' hlt

/-- C10 (amended): `passCard` always preserves the sum of all players'
chips plus `chipsOnCard`; `takeCard` preserves it whenever
`currentPlayerIndex` is in range (as it is in every reachable state); and
every state reachable from `createGame` carries exactly
`STARTING_CHIPS × players` chips. -/
theorem chip_conservation_spec :
    (∀ s : GameState, chipTotal (passCard s) = chipTotal s) ∧
    (∀ s : GameState, s.currentPlayerIndex < s.players.length →
      chipTotal (takeCard s) = chipTotal s) ∧
    (∀ s : GameState, Reachable s →
      chipTotal s = STARTING_CHIPS * s.players.length) :=
  ⟨chipTotal_passCard, chipTotal_takeCard, fun _ h => (reachable_chip_inv h).1⟩

theorem chip_conservation_witness :
    chipTotal (passCard sampleState) = chipTotal sampleState ∧
    (sampleState.currentPlayerIndex < sampleState.players.length ∧
      chipTotal (takeCard sampleState) = chipTotal sampleState) ∧
    chipTotal (createGame [sampleSetup] fun _ => 0) =
      STARTING_CHIPS * (createGame [sampleSetup] fun _ => 0).players.length :=
  ⟨chip_conservation_spec.1 sampleState,
    ⟨by decide, chip_conservation_spec.2.1 sampleState (by decide)⟩,
    chip_conservation_spec.2.2 _ (Reachable.base [sampleSetup] fun _ => 0)⟩

/-- C10 counterexample: on a (non-reachable) state whose
`currentPlayerIndex` is out of range, `takeCard` resets `chipsOnCard`
without crediting any player, so the total chip sum drops. -/
theorem chip_conservation_counterexample :
    chipTotal (takeCard skewState) ≠ chipTotal skewState := by decide

end NoThanks
